import Mathlib

/-!
Verification of the `RBParameters` named-parameter container
(src/include/reduced_basis/rb_parameters.h).

The header declares the class interface and its two private members
`_parameters` and `_extra_parameters`, both `std::map<std::string, Real>`;
the member-function bodies live in the companion `.C` translation unit,
which is not part of the sources here.  Each operation below is therefore
modelled from the specification (and from the contracts stated in the
header's doc comments), over a shallow embedding of `std::map` as a
strictly key-sorted association list.

`Real` is a floating-point scalar in the source.  The specification says
any floating value, including NaN, is accepted and stored verbatim, and
that equality uses the native floating-point comparison, under which
NaN is unequal to itself.  We embed the scalar type as `RReal`: either an
exact numeric value (a rational, adequate because the container never
computes with values, only stores and compares them) or NaN, with the
native comparison `RReal.feq` false on NaN.
-/

/-- A stored scalar value: an exact number, or NaN.  Modelled from the spec:
`Real` is a floating scalar and "any floating value, including NaN/Inf, is
accepted and stored verbatim". -/
inductive RReal where
  | num : ℚ → RReal
  | nan : RReal
deriving DecidableEq, Repr

/-- Modelled from the spec: native floating-point equality on stored values,
"exact value equality, no tolerance", with "NaN ≠ NaN under default
floating-point equality". -/
def RReal.feq : RReal → RReal → Bool
  | .num a, .num b => decide (a = b)
  | _, _ => false

/-- Lexicographic comparison of character lists by character code, the
embedding of `std::string::operator<` used as the key order of
`std::map<std::string, Real>`. -/
def strLtAux : List Char → List Char → Bool
  | [], [] => false
  | [], _ :: _ => true
  | _ :: _, [] => false
  | a :: s, b :: t =>
    if a.toNat < b.toNat then true
    else if b.toNat < a.toNat then false
    else strLtAux s t

/-- Lexicographic `<` on strings (the `std::map` key comparator). -/
def strLt (s t : String) : Bool := strLtAux s.data t.data

/-- Lookup in a `std::map<std::string, Real>` embedded as an association
list: the value stored under `key`, if present. -/
def mapFind : List (String × RReal) → String → Option RReal
  | [], _ => none
  | (k, v) :: t, key => if key = k then some v else mapFind t key

/-- Ordered insert-or-overwrite, the embedding of `std::map` assignment
`m[key] = val`: keeps the list sorted by key and keys unique. -/
def insertKV : List (String × RReal) → String → RReal → List (String × RReal)
  | [], key, val => [(key, val)]
  | (k, v) :: t, key, val =>
    if strLt key k then (key, val) :: (k, v) :: t
    else if key = k then (key, val) :: t
    else (k, v) :: insertKV t key val

/-- The embedding of `std::map::erase(key)`: removes the entry stored under
`key`, if any. -/
def eraseKV : List (String × RReal) → String → List (String × RReal)
  | [], _ => []
  | (k, v) :: t, key => if key = k then t else (k, v) :: eraseKV t key

/-- Element-wise comparison of two embedded maps, the embedding of
`std::map::operator==`: same length and equal `(key, value)` pairs in
order, values compared with the native floating comparison `RReal.feq`. -/
def mapEq : List (String × RReal) → List (String × RReal) → Bool
  | [], [] => true
  | (k1, v1) :: t1, (k2, v2) :: t2 => (decide (k1 = k2) && RReal.feq v1 v2) && mapEq t1 t2
  | _, _ => false

/-- The representation invariant of `std::map`: entries strictly ascending
by key (hence keys unique). -/
def MapSorted (m : List (String × RReal)) : Prop :=
  m.Pairwise (fun a b => strLt a.1 b.1 = true)

/-- The container: two independent mappings from name to scalar value.
Modelled from the spec: "hold two independent mappings from parameter name
(text key) to a scalar real value — a primary mapping and an extra
mapping". -/
structure RBParameters where
  _parameters : List (String × RReal)
  _extra_parameters : List (String × RReal)
deriving DecidableEq, Repr

namespace RBParameters

/-- Modelled from the spec: default construction, "two empty mappings". -/
def empty : RBParameters := ⟨[], []⟩

/-- Modelled from the spec: the conversion constructor "accepts an existing
name→value mapping and copies it verbatim into `primary`, leaving `extra`
empty". -/
def ofMap (m : List (String × RReal)) : RBParameters := ⟨m, []⟩

/-- Modelled from the spec: `clear()` "empties both mappings". -/
def clear (_p : RBParameters) : RBParameters := ⟨[], []⟩

/-- Modelled from the spec: `has_value` is a "pure membership query"
against `primary`. -/
def has_value (p : RBParameters) (param_name : String) : Bool :=
  (mapFind p._parameters param_name).isSome

/-- Modelled from the spec: `has_extra_value` is a "pure membership query"
against `extra`. -/
def has_extra_value (p : RBParameters) (param_name : String) : Bool :=
  (mapFind p._extra_parameters param_name).isSome

/-- Modelled from the spec: non-defaulting `get_value` returns the stored
value, and fails with the missing-parameter error (here `none`) when the
name is absent. -/
def get_value (p : RBParameters) (param_name : String) : Option RReal :=
  mapFind p._parameters param_name

/-- Modelled from the spec: `get_value(name, default_val)` "returns
`default_val` instead of failing when `name` is absent". -/
def get_value_default (p : RBParameters) (param_name : String) (default_val : RReal) : RReal :=
  (mapFind p._parameters param_name).getD default_val

/-- Modelled from the spec: `set_value` "inserts or overwrites the entry
for `name` in `primary`". -/
def set_value (p : RBParameters) (param_name : String) (value : RReal) : RBParameters :=
  { p with _parameters := insertKV p._parameters param_name value }

/-- Modelled from the spec: non-defaulting `get_extra_value`, identical
contract to `get_value` but on `extra`. -/
def get_extra_value (p : RBParameters) (param_name : String) : Option RReal :=
  mapFind p._extra_parameters param_name

/-- Modelled from the spec: defaulting `get_extra_value`, identical
contract to the defaulting `get_value` but on `extra`. -/
def get_extra_value_default (p : RBParameters) (param_name : String) (default_val : RReal) : RReal :=
  (mapFind p._extra_parameters param_name).getD default_val

/-- Modelled from the spec: `set_extra_value`, identical contract to
`set_value` but on `extra`. -/
def set_extra_value (p : RBParameters) (param_name : String) (value : RReal) : RBParameters :=
  { p with _extra_parameters := insertKV p._extra_parameters param_name value }

/-- Modelled from the spec: `n_parameters()` "returns the count of entries
in `primary` (not `extra`)". -/
def n_parameters (p : RBParameters) : Nat :=
  p._parameters.length

/-- Modelled from the spec: `erase_parameter` removes the named entry from
`primary` if present, "a no-op (not an error) if the name is absent". -/
def erase_parameter (p : RBParameters) (param_name : String) : RBParameters :=
  { p with _parameters := eraseKV p._parameters param_name }

/-- Modelled from the spec: `erase_extra_parameter`, identical contract to
`erase_parameter` but on `extra`. -/
def erase_extra_parameter (p : RBParameters) (param_name : String) : RBParameters :=
  { p with _extra_parameters := eraseKV p._extra_parameters param_name }

/-- Modelled from the spec: the `begin()`/`end()` iteration range over
`primary`, "read-only forward iteration over (name, value) pairs ... in
key order", as the sequence of pairs it traverses. -/
def iterationList (p : RBParameters) : List (String × RReal) :=
  p._parameters

/-- Modelled from the spec: the `extra_begin()`/`extra_end()` iteration
range over `extra`, as the sequence of pairs it traverses. -/
def extraIterationList (p : RBParameters) : List (String × RReal) :=
  p._extra_parameters

/-- Modelled from the spec: `operator==` is "true iff `primary` of both
objects contains exactly the same set of (name, value) pairs (including
exact value equality, no tolerance); `extra` is ignored". -/
def eq (p rhs : RBParameters) : Bool :=
  mapEq p._parameters rhs._parameters

/-- Modelled from the spec: `operator!=` is the "logical negation of
`operator==`". -/
def ne (p rhs : RBParameters) : Bool :=
  !(eq p rhs)

end RBParameters

/-- One mutation of the container through its public API. -/
inductive POp where
  | set (param_name : String) (value : RReal)
  | erase (param_name : String)
  | setExtra (param_name : String) (value : RReal)
  | eraseExtra (param_name : String)

/-- Apply one mutation. -/
def applyOp (p : RBParameters) : POp → RBParameters
  | .set n v => p.set_value n v
  | .erase n => p.erase_parameter n
  | .setExtra n v => p.set_extra_value n v
  | .eraseExtra n => p.erase_extra_parameter n

/-- The container obtained by a sequence of mutations starting from the
default-constructed (empty) container. -/
def runOps (ops : List POp) : RBParameters :=
  ops.foldl applyOp RBParameters.empty

/-- Build a container by a sequence of `set_value` calls starting from the
empty container: the pairs land in `primary` in the list's order. -/
def buildFromPairs (l : List (String × RReal)) : RBParameters :=
  l.foldl (fun p kv => p.set_value kv.1 kv.2) RBParameters.empty

/-! ### The key order is a strict linear order -/

theorem strLtAux_irrefl (s : List Char) : strLtAux s s = false := by
  induction s with
  | nil => rfl
  | cons a t ih => simp [strLtAux, ih]

theorem strLtAux_trans {s t u : List Char} :
    strLtAux s t = true → strLtAux t u = true → strLtAux s u = true := by
  induction s generalizing t u with
  | nil =>
    intro h1 h2
    cases t with
    | nil => simp [strLtAux] at h1
    | cons b tt =>
      cases u with
      | nil => simp [strLtAux] at h2
      | cons c uu => simp [strLtAux]
  | cons a ss ih =>
    intro h1 h2
    cases t with
    | nil => simp [strLtAux] at h1
    | cons b tt =>
      cases u with
      | nil => simp [strLtAux] at h2
      | cons c uu =>
        rw [strLtAux] at h1 h2 ⊢
        by_cases hab : a.toNat < b.toNat
        · by_cases hbc : b.toNat < c.toNat
          · rw [if_pos (Nat.lt_trans hab hbc)]
          · rw [if_neg hbc] at h2
            by_cases hcb : c.toNat < b.toNat
            · rw [if_pos hcb] at h2
              cases h2
            · have hbceq : b.toNat = c.toNat :=
                Nat.le_antisymm (Nat.le_of_not_lt hcb) (Nat.le_of_not_lt hbc)
              rw [if_pos (hbceq ▸ hab)]
        · rw [if_neg hab] at h1
          by_cases hba : b.toNat < a.toNat
          · rw [if_pos hba] at h1
            cases h1
          · rw [if_neg hba] at h1
            have habeq : a.toNat = b.toNat :=
              Nat.le_antisymm (Nat.le_of_not_lt hba) (Nat.le_of_not_lt hab)
            by_cases hbc : b.toNat < c.toNat
            · rw [if_pos hbc] at h2
              rw [if_pos (habeq ▸ hbc)]
            · rw [if_neg hbc] at h2
              by_cases hcb : c.toNat < b.toNat
              · rw [if_pos hcb] at h2
                cases h2
              · rw [if_neg hcb] at h2
                have hbceq : b.toNat = c.toNat :=
                  Nat.le_antisymm (Nat.le_of_not_lt hcb) (Nat.le_of_not_lt hbc)
                have hac : ¬a.toNat < c.toNat := by
                  rw [← hbceq]
                  exact hab
                have hca : ¬c.toNat < a.toNat := by
                  rw [← hbceq]
                  exact hba
                rw [if_neg hac, if_neg hca]
                exact ih h1 h2

theorem strLtAux_eq_of_not_lt {s t : List Char} (h1 : strLtAux s t = false)
    (h2 : strLtAux t s = false) : s = t := by
  induction s generalizing t with
  | nil =>
    cases t with
    | nil => rfl
    | cons b tt => simp [strLtAux] at h1
  | cons a ss ih =>
    cases t with
    | nil => simp [strLtAux] at h2
    | cons b tt =>
      rw [strLtAux] at h1 h2
      by_cases hab : a.toNat < b.toNat
      · rw [if_pos hab] at h1
        cases h1
      · by_cases hba : b.toNat < a.toNat
        · rw [if_pos hba] at h2
          cases h2
        · rw [if_neg hab, if_neg hba] at h1
          rw [if_neg hba, if_neg hab] at h2
          have habeq : a.toNat = b.toNat :=
            Nat.le_antisymm (Nat.le_of_not_lt hba) (Nat.le_of_not_lt hab)
          have hc : a = b := Char.eq_of_val_eq (UInt32.ext habeq)
          rw [hc, ih h1 h2]

theorem strLt_irrefl (s : String) : strLt s s = false :=
  strLtAux_irrefl s.data

theorem strLt_trans {a b c : String} (h1 : strLt a b = true) (h2 : strLt b c = true) :
    strLt a c = true :=
  strLtAux_trans h1 h2

theorem strLt_eq_of_not_lt {s t : String} (h1 : strLt s t = false)
    (h2 : strLt t s = false) : s = t := by
  cases s with
  | mk sd =>
    cases t with
    | mk td =>
      have : sd = td := strLtAux_eq_of_not_lt h1 h2
      rw [this]

theorem strLt_ne {a b : String} (h : strLt a b = true) : a ≠ b := by
  intro he
  rw [he, strLt_irrefl] at h
  cases h

theorem strLt_conn {a b : String} (h1 : ¬strLt a b = true) (h2 : a ≠ b) :
    strLt b a = true := by
  cases hc : strLt b a
  · have hab : strLt a b = false := by
      cases hd : strLt a b
      · rfl
      · exact absurd hd h1
    exact absurd (strLt_eq_of_not_lt hab hc) h2
  · rfl

theorem strLt_trichotomy (a b : String) :
    strLt a b = true ∨ a = b ∨ strLt b a = true := by
  by_cases h1 : strLt a b = true
  · exact Or.inl h1
  · by_cases h2 : a = b
    · exact Or.inr (Or.inl h2)
    · exact Or.inr (Or.inr (strLt_conn h1 h2))

/-! ### Basic lemmas about the embedded map operations -/

theorem mapFind_eq_none_iff (m : List (String × RReal)) (k : String) :
    mapFind m k = none ↔ k ∉ m.map Prod.fst := by
  induction m with
  | nil => simp [mapFind]
  | cons a t ih =>
    obtain ⟨ka, va⟩ := a
    by_cases hk : k = ka
    · subst hk; simp [mapFind]
    · simp [mapFind, hk, ih]

theorem mapFind_mem {m : List (String × RReal)} {k : String} {v : RReal}
    (h : mapFind m k = some v) : (k, v) ∈ m := by
  induction m with
  | nil => simp [mapFind] at h
  | cons a t ih =>
    obtain ⟨ka, va⟩ := a
    by_cases hk : k = ka
    · subst hk
      simp [mapFind] at h
      simp [h]
    · simp [mapFind, hk] at h
      exact List.mem_cons_of_mem _ (ih h)

theorem mem_iff_mapFind {m : List (String × RReal)} (h : (m.map Prod.fst).Nodup)
    (kv : String × RReal) : kv ∈ m ↔ mapFind m kv.1 = some kv.2 := by
  constructor
  · intro hmem
    induction m with
    | nil => cases hmem
    | cons a t ih =>
      obtain ⟨ka, va⟩ := a
      simp only [List.map_cons, List.nodup_cons] at h
      rcases List.mem_cons.mp hmem with h1 | h1
      · subst h1; simp [mapFind]
      · by_cases hk : kv.1 = ka
        · exact absurd (hk ▸ List.mem_map_of_mem Prod.fst h1) h.1
        · simp only [mapFind, hk, if_false]
          exact ih h.2 h1
  · exact mapFind_mem

theorem mapFind_insertKV_self (m : List (String × RReal)) (k : String) (v : RReal) :
    mapFind (insertKV m k v) k = some v := by
  induction m with
  | nil => simp [insertKV, mapFind]
  | cons a t ih =>
    obtain ⟨ka, va⟩ := a
    by_cases h1 : strLt k ka = true
    · simp [insertKV, h1, mapFind]
    · by_cases h2 : k = ka
      · simp [insertKV, h1, h2, mapFind, strLt_irrefl]
      · simp [insertKV, h1, h2, mapFind, ih]

theorem mapFind_insertKV_ne (m : List (String × RReal)) {k k1 : String} (v : RReal)
    (h : k1 ≠ k) : mapFind (insertKV m k v) k1 = mapFind m k1 := by
  induction m with
  | nil => simp [insertKV, mapFind, h]
  | cons a t ih =>
    obtain ⟨ka, va⟩ := a
    by_cases h1 : strLt k ka = true
    · simp [insertKV, h1, mapFind, h]
    · by_cases h2 : k = ka
      · subst h2
        simp [insertKV, h1, mapFind, h]
      · by_cases h3 : k1 = ka <;> simp [insertKV, h1, h2, mapFind, h3, ih]

theorem eraseKV_not_mem (m : List (String × RReal)) (k : String)
    (h : k ∉ m.map Prod.fst) : eraseKV m k = m := by
  induction m with
  | nil => rfl
  | cons a t ih =>
    obtain ⟨ka, va⟩ := a
    simp only [List.map_cons, List.mem_cons, not_or] at h
    simp [eraseKV, h.1, ih h.2]

theorem mapFind_eraseKV_ne (m : List (String × RReal)) {k k1 : String}
    (h : k1 ≠ k) : mapFind (eraseKV m k) k1 = mapFind m k1 := by
  induction m with
  | nil => rfl
  | cons a t ih =>
    obtain ⟨ka, va⟩ := a
    by_cases h1 : k = ka
    · subst h1
      simp [eraseKV, mapFind, h]
    · by_cases h2 : k1 = ka <;> simp [eraseKV, h1, mapFind, h2, ih]

theorem mapFind_eraseKV_self (m : List (String × RReal)) (k : String)
    (h : (m.map Prod.fst).Nodup) : mapFind (eraseKV m k) k = none := by
  induction m with
  | nil => rfl
  | cons a t ih =>
    obtain ⟨ka, va⟩ := a
    simp only [List.map_cons, List.nodup_cons] at h
    by_cases h1 : k = ka
    · subst h1
      simp only [eraseKV, if_pos rfl]
      exact (mapFind_eq_none_iff t k).mpr h.1
    · simp [eraseKV, h1, mapFind, ih h.2]

/-! ### The sortedness invariant -/

theorem mem_keys_insertKV {m : List (String × RReal)} {k k1 : String} {v : RReal} :
    k1 ∈ (insertKV m k v).map Prod.fst → k1 = k ∨ k1 ∈ m.map Prod.fst := by
  induction m with
  | nil => intro h; simpa [insertKV] using h
  | cons a t ih =>
    obtain ⟨ka, va⟩ := a
    intro h
    by_cases h1 : strLt k ka = true
    · simpa [insertKV, h1] using h
    · by_cases h2 : k = ka
      · subst h2
        rw [insertKV, if_neg h1, if_pos rfl] at h
        simp only [List.map_cons, List.mem_cons] at h
        rcases h with h | h
        · exact Or.inl h
        · exact Or.inr (List.mem_cons_of_mem _ h)
      · rw [insertKV, if_neg h1, if_neg h2] at h
        simp only [List.map_cons, List.mem_cons] at h
        rcases h with h | h
        · exact Or.inr (by simp [h])
        · rcases ih h with h3 | h3
          · exact Or.inl h3
          · exact Or.inr (List.mem_cons_of_mem _ h3)

theorem MapSorted_insertKV {m : List (String × RReal)} (k : String) (v : RReal)
    (h : MapSorted m) : MapSorted (insertKV m k v) := by
  induction m with
  | nil => simp [insertKV, MapSorted]
  | cons a t ih =>
    obtain ⟨ka, va⟩ := a
    rw [MapSorted, List.pairwise_cons] at h
    by_cases h1 : strLt k ka = true
    · rw [MapSorted, insertKV, if_pos h1]
      refine List.Pairwise.cons ?_ (List.Pairwise.cons h.1 h.2)
      intro b hb
      rcases List.mem_cons.mp hb with hb | hb
      · subst hb; exact h1
      · exact strLt_trans h1 (h.1 b hb)
    · by_cases h2 : k = ka
      · subst h2
        rw [MapSorted, insertKV, if_neg h1, if_pos rfl]
        exact List.Pairwise.cons h.1 h.2
      · have hka : strLt ka k = true := strLt_conn h1 h2
        rw [MapSorted, insertKV, if_neg h1, if_neg h2]
        refine List.Pairwise.cons ?_ (ih h.2)
        intro b hb
        rcases mem_keys_insertKV (List.mem_map_of_mem Prod.fst hb) with h3 | h3
        · rw [h3]; exact hka
        · obtain ⟨c, hc, hcb⟩ := List.mem_map.mp h3
          have := h.1 c hc
          rw [hcb] at this
          exact this

theorem eraseKV_sublist (m : List (String × RReal)) (k : String) :
    (eraseKV m k).Sublist m := by
  induction m with
  | nil => simp [eraseKV]
  | cons a t ih =>
    obtain ⟨ka, va⟩ := a
    by_cases h1 : k = ka
    · simp only [eraseKV, if_pos h1]
      exact List.sublist_cons_self _ _
    · simp only [eraseKV, if_neg h1]
      exact List.Sublist.cons₂ _ ih

theorem MapSorted_eraseKV {m : List (String × RReal)} (k : String)
    (h : MapSorted m) : MapSorted (eraseKV m k) :=
  List.Pairwise.sublist (eraseKV_sublist m k) h

theorem MapSorted_keys_nodup {m : List (String × RReal)} (h : MapSorted m) :
    (m.map Prod.fst).Nodup := by
  rw [MapSorted] at h
  exact (List.pairwise_map.mpr h).imp strLt_ne

/-! ### Lemmas about the equality comparison -/

theorem RReal.eq_of_feq {a b : RReal} (h : RReal.feq a b = true) : a = b := by
  cases a with
  | num qa =>
    cases b with
    | num qb =>
      simp only [RReal.feq, decide_eq_true_eq] at h
      rw [h]
    | nan => simp [RReal.feq] at h
  | nan => simp [RReal.feq] at h

theorem RReal.feq_self {a : RReal} (h : a ≠ RReal.nan) : RReal.feq a a = true := by
  cases a with
  | num q => simp [RReal.feq]
  | nan => exact absurd rfl h

theorem eq_of_mapEq {m1 m2 : List (String × RReal)} (h : mapEq m1 m2 = true) : m1 = m2 := by
  induction m1 generalizing m2 with
  | nil =>
    cases m2 with
    | nil => rfl
    | cons b t2 => simp [mapEq] at h
  | cons a t1 ih =>
    cases m2 with
    | nil => simp [mapEq] at h
    | cons b t2 =>
      obtain ⟨k1, v1⟩ := a
      obtain ⟨k2, v2⟩ := b
      simp only [mapEq, Bool.and_eq_true, decide_eq_true_eq] at h
      rw [h.1.1, RReal.eq_of_feq h.1.2, ih h.2]

theorem mapEq_refl_of_no_nan {m : List (String × RReal)}
    (h : ∀ kv ∈ m, kv.2 ≠ RReal.nan) : mapEq m m = true := by
  induction m with
  | nil => rfl
  | cons a t ih =>
    obtain ⟨k, v⟩ := a
    have hv : RReal.feq v v = true := RReal.feq_self (h (k, v) (List.mem_cons_self _ _))
    have ht := ih (fun kv hkv => h kv (List.mem_cons_of_mem _ hkv))
    simp [mapEq, hv, ht]

theorem mapEq_self_eq_false_of_nan {m : List (String × RReal)} {k : String}
    (h : (k, RReal.nan) ∈ m) : mapEq m m = false := by
  induction m with
  | nil => cases h
  | cons a t ih =>
    obtain ⟨ka, va⟩ := a
    rcases List.mem_cons.mp h with h1 | h1
    · have hva : va = RReal.nan := congrArg Prod.snd h1.symm
      subst hva
      simp [mapEq, RReal.feq]
    · simp [mapEq, ih h1]

/-! ### Extensionality for sorted maps -/

theorem mapFind_head_none {a : String × RReal} {t : List (String × RReal)}
    (h : MapSorted (a :: t)) : mapFind t a.1 = none := by
  rw [MapSorted, List.pairwise_cons] at h
  rw [mapFind_eq_none_iff]
  intro hmem
  obtain ⟨c, hc, hca⟩ := List.mem_map.mp hmem
  have hlt := h.1 c hc
  rw [hca, strLt_irrefl] at hlt
  cases hlt

theorem mapFind_ext {m1 m2 : List (String × RReal)} (h1 : MapSorted m1) (h2 : MapSorted m2)
    (h : ∀ k, mapFind m1 k = mapFind m2 k) : m1 = m2 := by
  induction m1 generalizing m2 with
  | nil =>
    cases m2 with
    | nil => rfl
    | cons b t2 =>
      obtain ⟨kb, vb⟩ := b
      have := h kb
      simp [mapFind] at this
  | cons a t1 ih =>
    cases m2 with
    | nil =>
      obtain ⟨ka, va⟩ := a
      have := h ka
      simp [mapFind] at this
    | cons b t2 =>
      obtain ⟨ka, va⟩ := a
      obtain ⟨kb, vb⟩ := b
      rcases strLt_trichotomy ka kb with hlt | heq | hgt
      · exfalso
        have hka := h ka
        rw [show mapFind ((ka, va) :: t1) ka = some va by simp [mapFind]] at hka
        have hnone : mapFind ((kb, vb) :: t2) ka = none := by
          rw [mapFind_eq_none_iff]
          intro hmem
          simp only [List.map_cons, List.mem_cons] at hmem
          rcases hmem with hmem | hmem
          · exact absurd hmem (strLt_ne hlt)
          · obtain ⟨c, hc, hca⟩ := List.mem_map.mp hmem
            have hcb := (List.pairwise_cons.mp h2).1 c hc
            rw [hca] at hcb
            have hkk := strLt_trans hlt hcb
            rw [strLt_irrefl] at hkk
            cases hkk
        rw [hnone] at hka
        cases hka
      · subst heq
        have hka := h ka
        simp only [mapFind, if_pos rfl] at hka
        injection hka with hv
        subst hv
        have htl : t1 = t2 := by
          apply ih (List.Pairwise.sublist (List.sublist_cons_self _ _) h1)
            (List.Pairwise.sublist (List.sublist_cons_self _ _) h2)
          intro k
          by_cases hk : k = ka
          · subst hk
            rw [mapFind_head_none h1, mapFind_head_none h2]
          · have := h k
            simpa [mapFind, hk] using this
        rw [htl]
      · exfalso
        have hkb := h kb
        rw [show mapFind ((kb, vb) :: t2) kb = some vb by simp [mapFind]] at hkb
        have hnone : mapFind ((ka, va) :: t1) kb = none := by
          rw [mapFind_eq_none_iff]
          intro hmem
          simp only [List.map_cons, List.mem_cons] at hmem
          rcases hmem with hmem | hmem
          · exact absurd hmem (strLt_ne hgt)
          · obtain ⟨c, hc, hca⟩ := List.mem_map.mp hmem
            have hcb := (List.pairwise_cons.mp h1).1 c hc
            rw [hca] at hcb
            have hkk := strLt_trans hgt hcb
            rw [strLt_irrefl] at hkk
            cases hkk
        rw [hnone] at hkb
        cases hkb

/-! ### Lemmas about entry counts -/

theorem length_insertKV_not_mem {m : List (String × RReal)} {k : String} (v : RReal)
    (h : k ∉ m.map Prod.fst) : (insertKV m k v).length = m.length + 1 := by
  induction m with
  | nil => rfl
  | cons a t ih =>
    obtain ⟨ka, va⟩ := a
    simp only [List.map_cons, List.mem_cons, not_or] at h
    by_cases h1 : strLt k ka = true
    · simp [insertKV, h1]
    · rw [insertKV, if_neg h1, if_neg h.1]
      simp [ih h.2]

theorem length_insertKV_mem {m : List (String × RReal)} {k : String} (v : RReal)
    (hs : MapSorted m) (h : k ∈ m.map Prod.fst) : (insertKV m k v).length = m.length := by
  induction m with
  | nil => cases h
  | cons a t ih =>
    obtain ⟨ka, va⟩ := a
    rw [MapSorted, List.pairwise_cons] at hs
    simp only [List.map_cons, List.mem_cons] at h
    by_cases h1 : strLt k ka = true
    · exfalso
      rcases h with h | h
      · exact absurd h (strLt_ne h1)
      · obtain ⟨c, hc, hck⟩ := List.mem_map.mp h
        have hlt := hs.1 c hc
        rw [hck] at hlt
        have hkk := strLt_trans h1 hlt
        rw [strLt_irrefl] at hkk
        cases hkk
    · by_cases h2 : k = ka
      · rw [insertKV, if_neg h1, if_pos h2]
        simp
      · rw [insertKV, if_neg h1, if_neg h2]
        have hkt : k ∈ t.map Prod.fst := h.resolve_left h2
        simp [ih hs.2 hkt]

theorem length_eraseKV_mem {m : List (String × RReal)} {k : String}
    (h : k ∈ m.map Prod.fst) : (eraseKV m k).length + 1 = m.length := by
  induction m with
  | nil => cases h
  | cons a t ih =>
    obtain ⟨ka, va⟩ := a
    by_cases h1 : k = ka
    · rw [eraseKV, if_pos h1]
      rfl
    · rw [eraseKV, if_neg h1]
      simp only [List.map_cons, List.mem_cons] at h
      simp [ih (h.resolve_left h1)]

/-! ### Building a container by a sequence of set_value calls -/

theorem foldl_set_value (l : List (String × RReal)) (p : RBParameters) :
    l.foldl (fun q kv => q.set_value kv.1 kv.2) p =
      ⟨l.foldl (fun m kv => insertKV m kv.1 kv.2) p._parameters, p._extra_parameters⟩ := by
  induction l generalizing p with
  | nil => rfl
  | cons a t ih =>
    rw [List.foldl_cons, ih (p.set_value a.1 a.2)]
    rfl

theorem MapSorted_foldl_insert (l : List (String × RReal)) (m0 : List (String × RReal))
    (h : MapSorted m0) : MapSorted (l.foldl (fun m kv => insertKV m kv.1 kv.2) m0) := by
  induction l generalizing m0 with
  | nil => exact h
  | cons a t ih => exact ih _ (MapSorted_insertKV a.1 a.2 h)

theorem mapFind_foldl_insert (l : List (String × RReal)) (m0 : List (String × RReal))
    (k : String) (h : (l.map Prod.fst).Nodup) :
    mapFind (l.foldl (fun m kv => insertKV m kv.1 kv.2) m0) k =
      (mapFind l k).or (mapFind m0 k) := by
  induction l generalizing m0 with
  | nil => simp [mapFind]
  | cons a t ih =>
    obtain ⟨ka, va⟩ := a
    simp only [List.map_cons, List.nodup_cons] at h
    simp only [List.foldl_cons]
    rw [ih _ h.2]
    by_cases hk : k = ka
    · subst hk
      rw [(mapFind_eq_none_iff t k).mpr h.1]
      rw [mapFind_insertKV_self]
      simp [mapFind]
    · rw [mapFind_insertKV_ne _ _ hk]
      simp [mapFind, hk]

theorem mapFind_perm {l1 l2 : List (String × RReal)} (hp : l1.Perm l2) :
    (l1.map Prod.fst).Nodup → ∀ k, mapFind l1 k = mapFind l2 k := by
  induction hp with
  | nil => intro _ k; rfl
  | cons a hp ih =>
    intro h k
    obtain ⟨ka, va⟩ := a
    simp only [List.map_cons, List.nodup_cons] at h
    by_cases hk : k = ka
    · simp [mapFind, hk]
    · simp only [mapFind, if_neg hk]
      exact ih h.2 k
  | swap a b l =>
    intro h k
    obtain ⟨ka, va⟩ := a
    obtain ⟨kb, vb⟩ := b
    simp only [List.map_cons, List.nodup_cons, List.mem_cons, not_or] at h
    have hab : kb ≠ ka := h.1.1
    by_cases hk1 : k = ka <;> by_cases hk2 : k = kb
    · exact absurd (hk1.symm.trans hk2).symm hab
    · simp [mapFind, hk1, hk2, Ne.symm hab]
    · simp [mapFind, hk1, hk2, hab]
    · simp [mapFind, hk1, hk2]
  | trans hp1 hp2 ih1 ih2 =>
    intro h k
    have h2 := (List.Perm.nodup_iff (hp1.map Prod.fst)).mp h
    exact (ih1 h k).trans (ih2 h2 k)

theorem buildFromPairs_parameters (l : List (String × RReal)) :
    (buildFromPairs l)._parameters = l.foldl (fun m kv => insertKV m kv.1 kv.2) [] ∧
    (buildFromPairs l)._extra_parameters = [] := by
  rw [buildFromPairs, foldl_set_value]
  exact ⟨rfl, rfl⟩

theorem buildFromPairs_perm {l1 l2 : List (String × RReal)} (hp : l1.Perm l2)
    (h : (l1.map Prod.fst).Nodup) :
    (buildFromPairs l1)._parameters = (buildFromPairs l2)._parameters := by
  rw [(buildFromPairs_parameters l1).1, (buildFromPairs_parameters l2).1]
  apply mapFind_ext (MapSorted_foldl_insert l1 [] (List.Pairwise.nil))
    (MapSorted_foldl_insert l2 [] (List.Pairwise.nil))
  intro k
  have h2 := (List.Perm.nodup_iff (hp.map Prod.fst)).mp h
  rw [mapFind_foldl_insert l1 [] k h, mapFind_foldl_insert l2 [] k h2]
  rw [mapFind_perm hp h k]

theorem mem_insertKV {m : List (String × RReal)} {k : String} {v : RReal}
    {kv : String × RReal} : kv ∈ insertKV m k v → kv = (k, v) ∨ kv ∈ m := by
  induction m with
  | nil => intro h; simpa [insertKV] using h
  | cons a t ih =>
    obtain ⟨ka, va⟩ := a
    intro h
    by_cases h1 : strLt k ka = true
    · rw [insertKV, if_pos h1] at h
      simpa using h
    · by_cases h2 : k = ka
      · rw [insertKV, if_neg h1, if_pos h2] at h
        rcases List.mem_cons.mp h with h | h
        · exact Or.inl h
        · exact Or.inr (List.mem_cons_of_mem _ h)
      · rw [insertKV, if_neg h1, if_neg h2] at h
        rcases List.mem_cons.mp h with h | h
        · exact Or.inr (by simp [h])
        · rcases ih h with h3 | h3
          · exact Or.inl h3
          · exact Or.inr (List.mem_cons_of_mem _ h3)

theorem mem_foldl_insert {l : List (String × RReal)} {m0 : List (String × RReal)}
    {kv : String × RReal} :
    kv ∈ l.foldl (fun m p => insertKV m p.1 p.2) m0 → kv ∈ m0 ∨ kv ∈ l := by
  induction l generalizing m0 with
  | nil => intro h; exact Or.inl h
  | cons a t ih =>
    intro h
    rcases ih h with h1 | h1
    · rcases mem_insertKV h1 with h2 | h2
      · exact Or.inr (by simp [h2])
      · exact Or.inl h2
    · exact Or.inr (List.mem_cons_of_mem _ h1)

/-! ### Invariants of API-reachable containers -/

theorem foldl_applyOp_invariant (ops : List POp) (p : RBParameters)
    (h1 : MapSorted p._parameters) (h2 : MapSorted p._extra_parameters) :
    MapSorted (ops.foldl applyOp p)._parameters ∧
    MapSorted (ops.foldl applyOp p)._extra_parameters := by
  induction ops generalizing p with
  | nil => exact ⟨h1, h2⟩
  | cons op t ih =>
    rw [List.foldl_cons]
    cases op with
    | set n v => exact ih _ (MapSorted_insertKV n v h1) h2
    | erase n => exact ih _ (MapSorted_eraseKV n h1) h2
    | setExtra n v => exact ih _ h1 (MapSorted_insertKV n v h2)
    | eraseExtra n => exact ih _ h1 (MapSorted_eraseKV n h2)

theorem runOps_sorted (ops : List POp) :
    MapSorted (runOps ops)._parameters ∧ MapSorted (runOps ops)._extra_parameters :=
  foldl_applyOp_invariant ops RBParameters.empty List.Pairwise.nil List.Pairwise.nil

theorem has_value_iff_mem (p : RBParameters) (k : String) :
    p.has_value k = true ↔ k ∈ p._parameters.map Prod.fst := by
  rw [RBParameters.has_value]
  cases hf : mapFind p._parameters k with
  | none => simp [(mapFind_eq_none_iff _ _).mp hf]
  | some v =>
    simp only [Option.isSome_some, true_iff]
    by_contra hk
    rw [(mapFind_eq_none_iff _ _).mpr hk] at hf
    cases hf

theorem has_extra_value_iff_mem (p : RBParameters) (k : String) :
    p.has_extra_value k = true ↔ k ∈ p._extra_parameters.map Prod.fst := by
  rw [RBParameters.has_extra_value]
  cases hf : mapFind p._extra_parameters k with
  | none => simp [(mapFind_eq_none_iff _ _).mp hf]
  | some v =>
    simp only [Option.isSome_some, true_iff]
    by_contra hk
    rw [(mapFind_eq_none_iff _ _).mpr hk] at hf
    cases hf

/-! ### The claims -/

/-- Claim C1, counterexample: two containers built from the identical
single-pair list [("a", NaN)] have identical `primary` contents, yet
`operator==` compares them unequal, because the native floating comparison
is false on NaN.  This refutes the claim as stated, which asserts
`operator==` returns true for any two containers built from the same
(name, value) pairs. -/
theorem rb_operator_eq_counterexample :
    (buildFromPairs [("a", RReal.nan)])._parameters =
      (buildFromPairs [("a", RReal.nan)])._parameters ∧
    RBParameters.eq (buildFromPairs [("a", RReal.nan)])
      (buildFromPairs [("a", RReal.nan)]) = false :=
  ⟨rfl, by decide⟩

/-- Claim C1 (amended): for every two containers whose primary mappings
were built from the same set of (name, value) pairs, in any insertion
order, with all values non-NaN, `operator==` returns true regardless of
differing extra contents; and `operator==` returns true only if the two
primary mappings contain exactly the same (name, value) pairs, with extra
ignored. -/
theorem rb_operator_eq_spec :
    (∀ (l1 l2 e1 e2 : List (String × RReal)),
        l1.Perm l2 → (l1.map Prod.fst).Nodup →
        (∀ kv ∈ l1, kv.2 ≠ RReal.nan) →
        RBParameters.eq ⟨(buildFromPairs l1)._parameters, e1⟩
          ⟨(buildFromPairs l2)._parameters, e2⟩ = true) ∧
    (∀ p q : RBParameters, RBParameters.eq p q = true →
        p._parameters = q._parameters) := by
  constructor
  · intro l1 l2 e1 e2 hp hnd hnn
    show mapEq (buildFromPairs l1)._parameters (buildFromPairs l2)._parameters = true
    rw [← buildFromPairs_perm hp hnd]
    apply mapEq_refl_of_no_nan
    intro kv hkv
    rw [(buildFromPairs_parameters l1).1] at hkv
    rcases mem_foldl_insert hkv with h | h
    · cases h
    · exact hnn kv h
  · intro p q h
    exact eq_of_mapEq h

/-- Witness for C1: two two-pair containers with the pairs inserted in
opposite orders, and different extra contents, compare equal. -/
theorem rb_operator_eq_spec_witness :
    RBParameters.eq
      ⟨(buildFromPairs [("a", RReal.num 1), ("b", RReal.num 2)])._parameters, []⟩
      ⟨(buildFromPairs [("b", RReal.num 2), ("a", RReal.num 1)])._parameters,
        [("c", RReal.num 7)]⟩ = true :=
  rb_operator_eq_spec.1 [("a", RReal.num 1), ("b", RReal.num 2)]
    [("b", RReal.num 2), ("a", RReal.num 1)] [] [("c", RReal.num 7)]
    (List.Perm.swap _ _ _) (by decide) (by decide)

/-- Claim C2: the non-defaulting `get_value` (and `get_extra_value`) fails
with the missing-parameter error (embedded as `none`) if and only if the
name is absent from the respective mapping, and returns the stored value
when the name is present.  The getters are pure functions of the container
in this embedding, so a failing call leaves the container unchanged. -/
theorem rb_get_value_missing_spec (p : RBParameters) (param_name : String) :
    (p.get_value param_name = none ↔ p.has_value param_name = false) ∧
    (p.get_extra_value param_name = none ↔ p.has_extra_value param_name = false) ∧
    (∀ v, mapFind p._parameters param_name = some v →
      p.get_value param_name = some v) ∧
    (∀ v, mapFind p._extra_parameters param_name = some v →
      p.get_extra_value param_name = some v) := by
  refine ⟨?_, ?_, ?_, ?_⟩
  · cases h : mapFind p._parameters param_name <;>
      simp [RBParameters.get_value, RBParameters.has_value, h]
  · cases h : mapFind p._extra_parameters param_name <;>
      simp [RBParameters.get_extra_value, RBParameters.has_extra_value, h]
  · intro v hv
    exact hv
  · intro v hv
    exact hv

/-- Witness for C2: a present key is returned and a missing key fails. -/
theorem rb_get_value_missing_spec_witness :
    (RBParameters.ofMap [("a", RReal.num 1)]).get_value "a" = some (RReal.num 1) ∧
    (RBParameters.ofMap [("a", RReal.num 1)]).get_value "missing" = none :=
  ⟨(rb_get_value_missing_spec (RBParameters.ofMap [("a", RReal.num 1)]) "a").2.2.1
      (RReal.num 1) (by decide),
   (rb_get_value_missing_spec (RBParameters.ofMap [("a", RReal.num 1)]) "missing").1.mpr
      (by decide)⟩

/-- Claim C3: after `set_value(name, v)` a subsequent `get_value(name)`
returns exactly `v`, and independently for `set_extra_value` and
`get_extra_value`. -/
theorem rb_set_get_roundtrip (p : RBParameters) (param_name : String) (value : RReal) :
    (p.set_value param_name value).get_value param_name = some value ∧
    (p.set_extra_value param_name value).get_extra_value param_name = some value :=
  ⟨mapFind_insertKV_self p._parameters param_name value,
   mapFind_insertKV_self p._extra_parameters param_name value⟩

/-- Claim C4: the defaulting `get_value(name, default_val)` returns
`default_val` exactly when `has_value(name)` is false and the stored value
when present, and never fails (it is a total function in this embedding);
same for the defaulting `get_extra_value` with respect to
`has_extra_value`. -/
theorem rb_get_value_default_spec (p : RBParameters) (param_name : String)
    (default_val : RReal) :
    (p.has_value param_name = false →
      p.get_value_default param_name default_val = default_val) ∧
    (∀ v, mapFind p._parameters param_name = some v →
      p.get_value_default param_name default_val = v) ∧
    (p.has_extra_value param_name = false →
      p.get_extra_value_default param_name default_val = default_val) ∧
    (∀ v, mapFind p._extra_parameters param_name = some v →
      p.get_extra_value_default param_name default_val = v) := by
  refine ⟨?_, ?_, ?_, ?_⟩
  · intro h
    cases hf : mapFind p._parameters param_name with
    | none => simp [RBParameters.get_value_default, hf]
    | some v => simp [RBParameters.has_value, hf] at h
  · intro v hv
    simp [RBParameters.get_value_default, hv]
  · intro h
    cases hf : mapFind p._extra_parameters param_name with
    | none => simp [RBParameters.get_extra_value_default, hf]
    | some v => simp [RBParameters.has_extra_value, hf] at h
  · intro v hv
    simp [RBParameters.get_extra_value_default, hv]

/-- Witness for C4: the default is returned for an absent key and the
stored value for a present key. -/
theorem rb_get_value_default_spec_witness :
    (RBParameters.ofMap [("k1", RReal.num 3)]).get_value_default "k2" (RReal.num 0) =
      RReal.num 0 ∧
    (RBParameters.ofMap [("k1", RReal.num 3)]).get_value_default "k1" (RReal.num 0) =
      RReal.num 3 :=
  ⟨(rb_get_value_default_spec (RBParameters.ofMap [("k1", RReal.num 3)]) "k2"
      (RReal.num 0)).1 (by decide),
   (rb_get_value_default_spec (RBParameters.ofMap [("k1", RReal.num 3)]) "k1"
      (RReal.num 0)).2.1 (RReal.num 3) (by decide)⟩

/-- Claim C5: the primary and extra mappings are independent namespaces:
`set_value` and `erase_parameter` leave the extra mapping unchanged,
`set_extra_value` and `erase_extra_parameter` leave the primary mapping
unchanged, and storing the same name in both namespaces keeps the two
entries unrelated. -/
theorem rb_namespaces_independent (p : RBParameters) (param_name : String)
    (v w : RReal) :
    (p.set_value param_name v)._extra_parameters = p._extra_parameters ∧
    (p.erase_parameter param_name)._extra_parameters = p._extra_parameters ∧
    (p.set_extra_value param_name v)._parameters = p._parameters ∧
    (p.erase_extra_parameter param_name)._parameters = p._parameters ∧
    ((p.set_value param_name v).set_extra_value param_name w).get_value param_name =
      some v ∧
    ((p.set_value param_name v).set_extra_value param_name w).get_extra_value param_name =
      some w :=
  ⟨rfl, rfl, rfl, rfl,
   mapFind_insertKV_self p._parameters param_name v,
   mapFind_insertKV_self (p.set_value param_name v)._extra_parameters param_name w⟩

/-- Claim C6: for every sequence of mutations starting from the empty
container, `n_parameters()` equals the number of distinct names currently
present in the primary mapping; setting an already-present name does not
increase the count, setting an absent name increases it by one, erasing a
present name decreases it by one, and entries in extra are never
counted. -/
theorem rb_n_parameters_spec (ops : List POp) :
    ((runOps ops)._parameters.map Prod.fst).Nodup ∧
    (runOps ops).n_parameters = ((runOps ops)._parameters.map Prod.fst).length ∧
    (∀ k, (runOps ops).has_value k = true ↔
      k ∈ (runOps ops)._parameters.map Prod.fst) ∧
    (∀ n v, (runOps ops).has_value n = true →
      ((runOps ops).set_value n v).n_parameters = (runOps ops).n_parameters) ∧
    (∀ n v, (runOps ops).has_value n = false →
      ((runOps ops).set_value n v).n_parameters = (runOps ops).n_parameters + 1) ∧
    (∀ n, (runOps ops).has_value n = true →
      ((runOps ops).erase_parameter n).n_parameters + 1 = (runOps ops).n_parameters) ∧
    (∀ n v, ((runOps ops).set_extra_value n v).n_parameters = (runOps ops).n_parameters ∧
      ((runOps ops).erase_extra_parameter n).n_parameters = (runOps ops).n_parameters) := by
  obtain ⟨hs, _⟩ := runOps_sorted ops
  have hnd := MapSorted_keys_nodup hs
  refine ⟨hnd, (List.length_map _ _).symm, fun k => has_value_iff_mem _ k, ?_, ?_, ?_, ?_⟩
  · intro n v h
    exact length_insertKV_mem v hs ((has_value_iff_mem _ n).mp h)
  · intro n v h
    apply length_insertKV_not_mem v
    intro hk
    rw [(has_value_iff_mem _ n).mpr hk] at h
    cases h
  · intro n h
    exact length_eraseKV_mem ((has_value_iff_mem _ n).mp h)
  · intro n v
    exact ⟨rfl, rfl⟩

/-- Witness for C6: on the container {a ↦ 1, b ↦ 2}, overwriting a present
name keeps the count, and erasing a present name lowers it by one. -/
theorem rb_n_parameters_spec_witness :
    ((runOps [POp.set "a" (RReal.num 1), POp.set "b" (RReal.num 2)]).set_value "a"
        (RReal.num 5)).n_parameters =
      (runOps [POp.set "a" (RReal.num 1), POp.set "b" (RReal.num 2)]).n_parameters ∧
    ((runOps [POp.set "a" (RReal.num 1), POp.set "b" (RReal.num 2)]).erase_parameter
        "a").n_parameters + 1 =
      (runOps [POp.set "a" (RReal.num 1), POp.set "b" (RReal.num 2)]).n_parameters :=
  ⟨(rb_n_parameters_spec [POp.set "a" (RReal.num 1), POp.set "b" (RReal.num 2)]).2.2.2.1
      "a" (RReal.num 5) (by decide),
   (rb_n_parameters_spec [POp.set "a" (RReal.num 1), POp.set "b" (RReal.num 2)]).2.2.2.2.2.1
      "a" (by decide)⟩

/-- Claim C7: constructing from a name→value mapping copies it verbatim
into primary and leaves extra empty; in particular, after constructing
from {"k1": 3.0}, `get_extra_value("k1", -1.0)` returns -1.0 while
`get_value("k1")` returns 3.0. -/
theorem rb_ofMap_spec (m : List (String × RReal)) (k : String) (d : RReal) :
    ((RBParameters.ofMap m)._parameters = m ∧
     (RBParameters.ofMap m)._extra_parameters = [] ∧
     (RBParameters.ofMap m).has_extra_value k = false ∧
     (RBParameters.ofMap m).get_extra_value_default k d = d) ∧
    ((RBParameters.ofMap [("k1", RReal.num 3)]).get_extra_value_default "k1"
        (RReal.num (-1)) = RReal.num (-1) ∧
     (RBParameters.ofMap [("k1", RReal.num 3)]).get_value "k1" = some (RReal.num 3)) :=
  ⟨⟨rfl, rfl, rfl, rfl⟩, ⟨rfl, by decide⟩⟩

/-- Claim C8: `erase_parameter` is total: on an absent name it leaves the
entire container unchanged and does not fail, and on a present name it
removes exactly that entry, so that `has_value` is false afterwards and
every other name's lookup is unchanged; `erase_extra_parameter` behaves
identically on the extra mapping. -/
theorem rb_erase_total_spec (p : RBParameters) (param_name : String) :
    (p.has_value param_name = false → p.erase_parameter param_name = p) ∧
    ((p._parameters.map Prod.fst).Nodup →
      (p.erase_parameter param_name).has_value param_name = false) ∧
    (∀ k, k ≠ param_name →
      (p.erase_parameter param_name).get_value k = p.get_value k) ∧
    (p.has_extra_value param_name = false → p.erase_extra_parameter param_name = p) ∧
    ((p._extra_parameters.map Prod.fst).Nodup →
      (p.erase_extra_parameter param_name).has_extra_value param_name = false) ∧
    (∀ k, k ≠ param_name →
      (p.erase_extra_parameter param_name).get_extra_value k = p.get_extra_value k) := by
  refine ⟨?_, ?_, ?_, ?_, ?_, ?_⟩
  · intro h
    have hk : param_name ∉ p._parameters.map Prod.fst := by
      intro hk
      rw [(has_value_iff_mem p param_name).mpr hk] at h
      cases h
    show ({ p with _parameters := eraseKV p._parameters param_name } : RBParameters) = p
    rw [eraseKV_not_mem _ _ hk]
  · intro h
    show (mapFind (eraseKV p._parameters param_name) param_name).isSome = false
    rw [mapFind_eraseKV_self _ _ h]
    rfl
  · intro k hk
    exact mapFind_eraseKV_ne p._parameters hk
  · intro h
    have hk : param_name ∉ p._extra_parameters.map Prod.fst := by
      intro hk
      rw [(has_extra_value_iff_mem p param_name).mpr hk] at h
      cases h
    show ({ p with _extra_parameters := eraseKV p._extra_parameters param_name } : RBParameters) = p
    rw [eraseKV_not_mem _ _ hk]
  · intro h
    show (mapFind (eraseKV p._extra_parameters param_name) param_name).isSome = false
    rw [mapFind_eraseKV_self _ _ h]
    rfl
  · intro k hk
    exact mapFind_eraseKV_ne p._extra_parameters hk

/-- Witness for C8: erasing an absent key is a no-op and erasing a present
key makes it absent. -/
theorem rb_erase_total_spec_witness :
    (RBParameters.ofMap [("a", RReal.num 1)]).erase_parameter "mu_0" =
      RBParameters.ofMap [("a", RReal.num 1)] ∧
    ((RBParameters.ofMap [("a", RReal.num 1)]).erase_parameter "a").has_value "a" =
      false :=
  ⟨(rb_erase_total_spec (RBParameters.ofMap [("a", RReal.num 1)]) "mu_0").1 (by decide),
   (rb_erase_total_spec (RBParameters.ofMap [("a", RReal.num 1)]) "a").2.1 (by decide)⟩

/-- Claim C9: for every container reachable through the mutation API,
iterating from begin() to end() yields each primary name exactly once,
paired with its stored value, in strictly ascending key order independent
of insertion order; extra_begin()/extra_end() does the same for the extra
mapping. -/
theorem rb_iteration_spec (ops : List POp) :
    ((runOps ops).iterationList.map Prod.fst).Pairwise (fun a b => strLt a b = true) ∧
    ((runOps ops).iterationList.map Prod.fst).Nodup ∧
    (∀ kv, kv ∈ (runOps ops).iterationList ↔
      mapFind (runOps ops)._parameters kv.1 = some kv.2) ∧
    ((runOps ops).extraIterationList.map Prod.fst).Pairwise (fun a b => strLt a b = true) ∧
    ((runOps ops).extraIterationList.map Prod.fst).Nodup ∧
    (∀ kv, kv ∈ (runOps ops).extraIterationList ↔
      mapFind (runOps ops)._extra_parameters kv.1 = some kv.2) := by
  obtain ⟨h1, h2⟩ := runOps_sorted ops
  exact ⟨List.pairwise_map.mpr h1, MapSorted_keys_nodup h1,
    mem_iff_mapFind (MapSorted_keys_nodup h1),
    List.pairwise_map.mpr h2, MapSorted_keys_nodup h2,
    mem_iff_mapFind (MapSorted_keys_nodup h2)⟩

/-- Witness for C9: on a container built in descending insertion order,
the pair ("a", 1) is reached by iteration because it is stored. -/
theorem rb_iteration_spec_witness :
    ("a", RReal.num 1) ∈
      (runOps [POp.set "b" (RReal.num 2), POp.set "a" (RReal.num 1)]).iterationList :=
  ((rb_iteration_spec [POp.set "b" (RReal.num 2), POp.set "a" (RReal.num 1)]).2.2.1
      ("a", RReal.num 1)).mpr (by decide)

/-- Claim C10: `operator==` is not reflexive in the presence of NaN: a
container whose primary mapping stores NaN for some name compares unequal
to itself, and `operator!=` on it returns true. -/
theorem rb_eq_not_reflexive_on_nan (p : RBParameters) (k : String)
    (h : (k, RReal.nan) ∈ p._parameters) :
    RBParameters.eq p p = false ∧ RBParameters.ne p p = true := by
  have hm : mapEq p._parameters p._parameters = false := mapEq_self_eq_false_of_nan h
  refine ⟨hm, ?_⟩
  show (!(RBParameters.eq p p)) = true
  rw [show RBParameters.eq p p = mapEq p._parameters p._parameters from rfl, hm]
  rfl

/-- Witness for C10: the container {a ↦ NaN} is unequal to itself. -/
theorem rb_eq_not_reflexive_on_nan_witness :
    RBParameters.eq (RBParameters.ofMap [("a", RReal.nan)])
      (RBParameters.ofMap [("a", RReal.nan)]) = false ∧
    RBParameters.ne (RBParameters.ofMap [("a", RReal.nan)])
      (RBParameters.ofMap [("a", RReal.nan)]) = true :=
  rb_eq_not_reflexive_on_nan (RBParameters.ofMap [("a", RReal.nan)]) "a" (by decide)
